import Mathlib

/-!
Verification of the event-recording core of the glean telemetry library.

The repository fragment under verification (`src/glean-core/src/traits/event.rs`)
declares the `Event` trait: `record`, `test_has_value`, `test_get_value`,
`test_get_value_as_json_string`.  The implementing code (validator, event
store, recorder, JSON projection) is not part of the fragment, so those
components are modelled from the specification and checked against the
claims.
-/

namespace Glean

/-- The immutable record of one accepted event occurrence.
Modelled from the spec: `RecordedEvent` (§3) with `timestamp` (monotonic
milliseconds), `category`, `name`, and `extra` (key-name to value mapping,
insertion order = original index order); the implementing struct is not in
the source fragment. -/
structure RecordedEvent where
  timestamp : Nat
  category : String
  name : String
  extra : List (String × String)
deriving DecidableEq, Repr

/-- A metric instance's configuration, fixed at definition time: category,
name, the ExtraKeyTable (`allowed_extra_keys`), and the stores it is
registered under.  Modelled from the spec: §3 ExtraKeyTable and §6 inbound
registration data; the implementing struct is not in the source fragment. -/
structure EventMetric where
  category : String
  name : String
  allowed_extra_keys : List String
  send_in_pings : List String
deriving DecidableEq, Repr

/-- The caller-supplied extras of one `record` call.  The source trait takes
a `HashMap<i32, String>`, so keys are unique by index: we model it as an
association list from `Int` indices to values whose key list has no
duplicates. -/
structure CandidateExtra where
  entries : List (Int × String)
  keysNodup : (entries.map Prod.fst).Nodup

/-- The per-process event storage: named channels, each an append-only
sequence of recorded events.  A channel is created lazily on first append.
Modelled from the spec: `EventStore` (§4.3); the implementing struct is not
in the source fragment. -/
structure EventStore where
  channels : List (String × List RecordedEvent)
deriving DecidableEq, Repr

/-- The whole in-process state the recording path touches: the store, the
invalid-extra-key error counter, and the session clock (milliseconds).
Modelled from the spec: §4.4 and §7; the implementing state is not in the
source fragment. -/
structure GleanState where
  store : EventStore
  invalid_extra_key_errors : Nat
  now : Nat
deriving DecidableEq, Repr

/-- The store holding no channels at all (process start). -/
def EventStore.empty : EventStore := ⟨[]⟩

/-- The initial process state: empty store, zero errors, clock at 0. -/
def GleanState.init : GleanState := ⟨EventStore.empty, 0, 0⟩

/-- Append `e` to channel `n` of an association list of channels, creating
the channel at the end if absent.  Modelled from the spec: §4.3 `append`. -/
def updateChannel : List (String × List RecordedEvent) → String → RecordedEvent →
    List (String × List RecordedEvent)
  | [], n, e => [(n, [e])]
  | (k, l) :: rest, n, e =>
      if k = n then (k, l ++ [e]) :: rest else (k, l) :: updateChannel rest n e

/-- Append one event to one named channel.  Modelled from the spec: §4.3
`append(store_name, event)`. -/
def EventStore.append (s : EventStore) (n : String) (e : RecordedEvent) : EventStore :=
  ⟨updateChannel s.channels n e⟩

/-- Fan one event out to every named store, in order.  Modelled from the
spec: §4.4 `record` appends the event to every store the metric is
registered under. -/
def EventStore.appendAll (s : EventStore) (names : List String) (e : RecordedEvent) :
    EventStore :=
  names.foldl (fun acc n => acc.append n e) s

/-- The sequence a channel currently holds (`[]` when the channel was never
created). -/
def EventStore.eventsOf (s : EventStore) (n : String) : List RecordedEvent :=
  (s.channels.lookup n).getD []

/-- True iff the channel exists and its sequence is non-empty.  Modelled
from the spec: §4.3 `has_events`. -/
def EventStore.has_events (s : EventStore) (n : String) : Bool :=
  match s.channels.lookup n with
  | some l => !l.isEmpty
  | none => false

/-- Read-only snapshot of a channel: `none` when the channel was never
created or is empty.  Modelled from the spec: §4.3 `snapshot`. -/
def EventStore.snapshot (s : EventStore) (n : String) : Option (List RecordedEvent) :=
  match s.channels.lookup n with
  | none => none
  | some [] => none
  | some l => some l

/-- Remove a channel entirely from the association list. -/
def removeChannel : List (String × List RecordedEvent) → String →
    List (String × List RecordedEvent)
  | [], _ => []
  | (k, l) :: rest, n =>
      if k = n then removeChannel rest n else (k, l) :: removeChannel rest n

/-- Drain a channel: return its full sequence and the store without it.
Modelled from the spec: §4.3 `clear(store_name)`, exposed only to the
external ping-upload collaborator. -/
def EventStore.clear (s : EventStore) (n : String) :
    List RecordedEvent × EventStore :=
  ((s.channels.lookup n).getD [], ⟨removeChannel s.channels n⟩)

/-- Resolve the extras starting at table position 0 keyed from index `i`:
walk the ExtraKeyTable in ascending index order and emit `(key name, value)`
for every index present in the candidate entries.  Modelled from the spec:
§4.1 ResolvedExtra preserves index-ascending order. -/
def resolveFrom (entries : List (Int × String)) : Nat → List String →
    List (String × String)
  | _, [] => []
  | i, name :: rest =>
      match entries.lookup (Int.ofNat i) with
      | some v => (name, v) :: resolveFrom entries (i + 1) rest
      | none => resolveFrom entries (i + 1) rest

/-- Resolved extras of a candidate against an ExtraKeyTable, in
index-ascending order. -/
def resolveExtra (table : List String) (entries : List (Int × String)) :
    List (String × String) :=
  resolveFrom entries 0 table

/-- Every supplied index lies in `[0, table.length)`. -/
def validExtras (table : List String) (entries : List (Int × String)) : Bool :=
  entries.all fun p => decide (0 ≤ p.1 ∧ p.1 < (table.length : Int))

/-- Validate a candidate extra mapping against the ExtraKeyTable: reject the
whole mapping if any index is out of range, otherwise resolve it.  Modelled
from the spec: §4.1 `validate`. -/
def validate (table : List String) (entries : List (Int × String)) :
    Option (List (String × String)) :=
  if validExtras table entries then some (resolveExtra table entries) else none

/-- Resolve the optional caller input: absent extras always resolve to the
empty mapping; present extras are validated.  Modelled from the spec: §4.1
(missing input is always valid) and §9 (two entry points for the generic
`Into<Option<HashMap>>` parameter). -/
def resolveCandidate (table : List String) : Option CandidateExtra →
    Option (List (String × String))
  | none => some []
  | some ce => validate table ce.entries

/-- `record`: validate the extras; on success build a `RecordedEvent`
stamped with the session clock and append it to every store of the metric;
on rejection leave every store untouched and increment the
invalid-extra-key error counter.  Never fails from the caller's point of
view.  `dt` is the (non-negative) clock advance since the previous
operation.  Modelled from the spec: §4.4 `record(extra)`; the source
fragment declares only the trait method. -/
def GleanState.record (st : GleanState) (m : EventMetric)
    (extra : Option CandidateExtra) (dt : Nat) : GleanState :=
  let ts := st.now + dt
  match resolveCandidate m.allowed_extra_keys extra with
  | some resolved =>
      let e : RecordedEvent := ⟨ts, m.category, m.name, resolved⟩
      ⟨st.store.appendAll m.send_in_pings e, st.invalid_extra_key_errors, ts⟩
  | none =>
      ⟨st.store, st.invalid_extra_key_errors + 1, ts⟩

/-- `test_has_value`: delegates to `has_events`; never mutates.  Modelled
from the spec: §4.4. -/
def test_has_value (st : GleanState) (store_name : String) : Bool :=
  st.store.has_events store_name

/-- `test_get_value`: delegates to `snapshot`; never mutates, never clears.
Modelled from the spec: §4.4. -/
def test_get_value (st : GleanState) (store_name : String) :
    Option (List RecordedEvent) :=
  st.store.snapshot store_name

/-- JSON values, the parse target of the test JSON surface.  Modelled from
the spec: §4.4 `test_get_value_as_json_string` produces a JSON array of
objects. -/
inductive Json where
  | str (s : String)
  | num (n : Nat)
  | arr (elems : List Json)
  | obj (fields : List (String × Json))
deriving Repr

/-- Escape one character for inclusion in a JSON string literal. -/
def escChar (c : Char) : String :=
  if c = '"' then "\\\""
  else if c = '\\' then "\\\\"
  else if c = '\n' then "\\n"
  else if c = '\r' then "\\r"
  else if c = '\t' then "\\t"
  else String.singleton c

/-- Escape a string for inclusion in a JSON string literal. -/
def escape (s : String) : String :=
  String.join (s.toList.map escChar)

mutual

/-- Compact JSON rendering (no whitespace). -/
def Json.render : Json → String
  | .str s => "\"" ++ escape s ++ "\""
  | .num n => Nat.repr n
  | .arr l => "[" ++ Json.renderElems l ++ "]"
  | .obj l => "\x7b" ++ Json.renderFields l ++ "\x7d"

/-- Comma-separated rendering of array elements. -/
def Json.renderElems : List Json → String
  | [] => ""
  | [j] => Json.render j
  | j :: js => Json.render j ++ "," ++ Json.renderElems js

/-- Comma-separated rendering of object fields. -/
def Json.renderFields : List (String × Json) → String
  | [] => ""
  | [(k, v)] => "\"" ++ escape k ++ "\":" ++ Json.render v
  | (k, v) :: fs => "\"" ++ escape k ++ "\":" ++ Json.render v ++ "," ++ Json.renderFields fs

end

/-- Field lookup on a JSON object (`none` on non-objects and absent keys). -/
def Json.getField : Json → String → Option Json
  | .obj l, k => l.lookup k
  | _, _ => none

/-- The JSON object of one recorded event: `timestamp`, `category`, `name`,
and `extra` omitted entirely when no extras were supplied.  Modelled from
the spec: §4.4 field list and omission-of-empty-extra rule. -/
def eventToJson (e : RecordedEvent) : Json :=
  Json.obj
    ([("timestamp", Json.num e.timestamp),
      ("category", Json.str e.category),
      ("name", Json.str e.name)] ++
     (if e.extra.isEmpty then []
      else [("extra", Json.obj (e.extra.map fun p => (p.1, Json.str p.2)))]))

/-- `test_get_value_as_json_string`: the channel's events serialized as a
JSON array of objects; the literal `[]` when the store is empty or absent.
Modelled from the spec: §4.4. -/
def test_get_value_as_json_string (st : GleanState) (store_name : String) : String :=
  Json.render (Json.arr ((st.store.eventsOf store_name).map eventToJson))

/-- External clear of one store, performed by the excluded ping-upload
collaborator: drains the channel.  Modelled from the spec: §4.3 `clear`. -/
def GleanState.clearStore (st : GleanState) (store_name : String) : GleanState :=
  { st with store := (st.store.clear store_name).2 }

/-- One test-introspection read request.  Modelled from the spec: §4.4
test surface. -/
inductive ReadOp where
  | hasVal (store_name : String)
  | getVal (store_name : String)
  | getJson (store_name : String)
deriving DecidableEq, Repr

/-- The result of one test-introspection read. -/
inductive ReadResult where
  | bool (b : Bool)
  | events (v : Option (List RecordedEvent))
  | json (s : String)
deriving DecidableEq, Repr

/-- Run one read against the state; reads return their result and the state
they leave behind. -/
def runRead (st : GleanState) : ReadOp → ReadResult × GleanState
  | .hasVal s => (.bool (test_has_value st s), st)
  | .getVal s => (.events (test_get_value st s), st)
  | .getJson s => (.json (test_get_value_as_json_string st s), st)

/-- Run a sequence of reads, threading the state through. -/
def runReads (st : GleanState) : List ReadOp → List ReadResult × GleanState
  | [] => ([], st)
  | op :: ops =>
      let r := runRead st op
      let rs := runReads r.2 ops
      (r.1 :: rs.1, rs.2)

/-- One operation of this core: a `record` call or a test read.  The
external `clear` is not part of this core's surface.  Modelled from the
spec: §4.4 operation set. -/
inductive CoreOp where
  | call (m : EventMetric) (extra : Option CandidateExtra) (dt : Nat)
  | read (r : ReadOp)

/-- Apply one core operation to the state (a read's result is discarded;
only its state effect matters here). -/
def applyOp (st : GleanState) : CoreOp → GleanState
  | .call m extra dt => st.record m extra dt
  | .read r => (runRead st r).2

/-! ### Helper lemmas about the store -/

lemma lookup_updateChannel (l : List (String × List RecordedEvent)) (n t : String)
    (e : RecordedEvent) :
    (updateChannel l n e).lookup t =
      if t = n then some ((l.lookup t).getD [] ++ [e]) else l.lookup t := by
  induction l with
  | nil =>
      by_cases h : t = n
      · subst h; simp [updateChannel, List.lookup]
      · simp [updateChannel, List.lookup, beq_false_of_ne h, h]
  | cons hd tl ih =>
      obtain ⟨k, l₀⟩ := hd
      by_cases hk : k = n
      · subst hk
        by_cases ht : t = k
        · subst ht
          simp [updateChannel, List.lookup]
        · simp [updateChannel, List.lookup, beq_false_of_ne ht, ht]
      · by_cases ht : t = k
        · have htn : t ≠ n := fun h => hk ((ht.symm.trans h))
          simp [updateChannel, hk, List.lookup, ht, htn]
        · simp [updateChannel, hk, List.lookup, beq_false_of_ne ht, ih]

lemma eventsOf_append (s : EventStore) (n t : String) (e : RecordedEvent) :
    (s.append n e).eventsOf t =
      if t = n then s.eventsOf t ++ [e] else s.eventsOf t := by
  by_cases h : t = n <;>
    simp [EventStore.append, EventStore.eventsOf, lookup_updateChannel, h]

lemma eventsOf_appendAll_not_mem (s : EventStore) (names : List String)
    (e : RecordedEvent) (t : String) (ht : t ∉ names) :
    (s.appendAll names e).eventsOf t = s.eventsOf t := by
  induction names generalizing s with
  | nil => rfl
  | cons n ns ih =>
      have hne : t ≠ n := fun h => ht (h ▸ List.mem_cons_self n ns)
      have hts : t ∉ ns := fun h => ht (List.mem_cons_of_mem n h)
      calc (s.appendAll (n :: ns) e).eventsOf t
          = ((s.append n e).appendAll ns e).eventsOf t := rfl
        _ = (s.append n e).eventsOf t := ih (s.append n e) hts
        _ = s.eventsOf t := by simp [eventsOf_append, hne]

lemma eventsOf_appendAll_mem (s : EventStore) (names : List String)
    (e : RecordedEvent) (t : String) (hnd : names.Nodup) (ht : t ∈ names) :
    (s.appendAll names e).eventsOf t = s.eventsOf t ++ [e] := by
  induction names generalizing s with
  | nil => cases ht
  | cons n ns ih =>
      have hnd' : ns.Nodup := (List.nodup_cons.mp hnd).2
      rcases List.mem_cons.mp ht with h | h
      · subst h
        have htns : t ∉ ns := (List.nodup_cons.mp hnd).1
        calc (s.appendAll (t :: ns) e).eventsOf t
            = ((s.append t e).appendAll ns e).eventsOf t := rfl
          _ = (s.append t e).eventsOf t := eventsOf_appendAll_not_mem _ ns e t htns
          _ = s.eventsOf t ++ [e] := by simp [eventsOf_append]
      · have hne : t ≠ n := fun hh => (List.nodup_cons.mp hnd).1 (hh ▸ h)
        calc (s.appendAll (n :: ns) e).eventsOf t
            = ((s.append n e).appendAll ns e).eventsOf t := rfl
          _ = (s.append n e).eventsOf t ++ [e] := ih (s.append n e) hnd' h
          _ = s.eventsOf t ++ [e] := by simp [eventsOf_append, hne]

lemma eventsOf_appendAll_cases (s : EventStore) (names : List String)
    (e : RecordedEvent) (t : String) :
    ∃ tail, (s.appendAll names e).eventsOf t = s.eventsOf t ++ tail ∧
      (∀ x ∈ tail, x = e) := by
  induction names generalizing s with
  | nil => exact ⟨[], by simp [EventStore.appendAll], by simp⟩
  | cons n ns ih =>
      obtain ⟨tail, htail, hall⟩ := ih (s.append n e)
      by_cases h : t = n
      · subst h
        refine ⟨[e] ++ tail, ?_, ?_⟩
        · calc (s.appendAll (t :: ns) e).eventsOf t
              = ((s.append t e).appendAll ns e).eventsOf t := rfl
            _ = (s.append t e).eventsOf t ++ tail := htail
            _ = (s.eventsOf t ++ [e]) ++ tail := by simp [eventsOf_append]
            _ = s.eventsOf t ++ ([e] ++ tail) := by simp
        · intro x hx
          rcases List.mem_append.mp hx with hx | hx
          · simpa using hx
          · exact hall x hx
      · refine ⟨tail, ?_, hall⟩
        calc (s.appendAll (n :: ns) e).eventsOf t
            = ((s.append n e).appendAll ns e).eventsOf t := rfl
          _ = (s.append n e).eventsOf t ++ tail := htail
          _ = s.eventsOf t ++ tail := by simp [eventsOf_append, h]

lemma snapshot_eq (s : EventStore) (n : String) :
    s.snapshot n = if s.eventsOf n = [] then none else some (s.eventsOf n) := by
  unfold EventStore.snapshot EventStore.eventsOf
  rcases h : s.channels.lookup n with _ | l
  · simp
  · cases l <;> simp

lemma has_events_eq (s : EventStore) (n : String) :
    s.has_events n = !(s.eventsOf n).isEmpty := by
  unfold EventStore.has_events EventStore.eventsOf
  rcases h : s.channels.lookup n with _ | l
  · simp
  · cases l <;> simp

lemma lookup_removeChannel (l : List (String × List RecordedEvent)) (n : String) :
    (removeChannel l n).lookup n = none := by
  induction l with
  | nil => simp [removeChannel, List.lookup]
  | cons hd tl ih =>
      obtain ⟨k, l₀⟩ := hd
      by_cases hk : k = n
      · simpa [removeChannel, hk] using ih
      · have hnk : n ≠ k := fun h => hk h.symm
        simpa [removeChannel, hk, List.lookup, beq_false_of_ne hnk] using ih

lemma eventsOf_clear (s : EventStore) (n : String) :
    ((s.clear n).2).eventsOf n = [] := by
  simp [EventStore.clear, EventStore.eventsOf, lookup_removeChannel]

/-! ### Helper lemmas about validation and resolution -/

lemma validExtras_iff (table : List String) (entries : List (Int × String)) :
    validExtras table entries = true ↔
      ∀ p ∈ entries, 0 ≤ p.1 ∧ p.1 < (table.length : Int) := by
  simp [validExtras]

lemma mem_fst_of_mem_resolveFrom (entries : List (Int × String)) :
    ∀ (table : List String) (i : Nat) (k v : String),
      (k, v) ∈ resolveFrom entries i table → k ∈ table := by
  intro table
  induction table with
  | nil => intro i k v h; simp [resolveFrom] at h
  | cons name rest ih =>
      intro i k v h
      unfold resolveFrom at h
      rcases hlk : entries.lookup (Int.ofNat i) with _ | w
      · rw [hlk] at h
        exact List.mem_cons_of_mem name (ih (i + 1) k v h)
      · rw [hlk] at h
        rcases List.mem_cons.mp h with h | h
        · exact (Prod.mk.injEq _ _ _ _ ▸ h).1 ▸ List.mem_cons_self name rest
        · exact List.mem_cons_of_mem name (ih (i + 1) k v h)

lemma resolveFrom_map_fst_sublist (entries : List (Int × String)) :
    ∀ (table : List String) (i : Nat),
      ((resolveFrom entries i table).map Prod.fst).Sublist table := by
  intro table
  induction table with
  | nil => intro i; simp [resolveFrom]
  | cons name rest ih =>
      intro i
      unfold resolveFrom
      rcases hlk : entries.lookup (Int.ofNat i) with _ | w
      · exact (ih (i + 1)).cons name
      · simpa using (ih (i + 1)).cons₂ name

lemma mem_resolveFrom_of_lookup (entries : List (Int × String)) :
    ∀ (table : List String) (i j : Nat) (k v : String),
      table[j]? = some k → entries.lookup (Int.ofNat (i + j)) = some v →
      (k, v) ∈ resolveFrom entries i table := by
  intro table
  induction table with
  | nil => intro i j k v hget _; simp at hget
  | cons name rest ih =>
      intro i j k v hget hlk
      cases j with
      | zero =>
          have hk : name = k := by simpa using hget
          subst hk
          have hlk0 : entries.lookup (Int.ofNat i) = some v := hlk
          unfold resolveFrom
          rw [hlk0]
          exact List.mem_cons_self _ _
      | succ j =>
          have hget' : rest[j]? = some k := by simpa using hget
          have hlk' : entries.lookup (Int.ofNat ((i + 1) + j)) = some v := by
            have : (i + 1) + j = i + (j + 1) := by omega
            rw [this]; exact hlk
          have hmem := ih (i + 1) j k v hget' hlk'
          unfold resolveFrom
          rcases hl : entries.lookup (Int.ofNat i) with _ | w
          · exact hmem
          · exact List.mem_cons_of_mem _ hmem

lemma lookup_eq_of_nodup :
    ∀ (l : List (Int × String)), (l.map Prod.fst).Nodup →
      ∀ (i : Int) (v : String), (i, v) ∈ l → l.lookup i = some v := by
  intro l
  induction l with
  | nil => intro _ i v h; simp at h
  | cons hd tl ih =>
      intro hnd i v h
      obtain ⟨i₀, v₀⟩ := hd
      rcases List.mem_cons.mp h with h | h
      · obtain ⟨h1, h2⟩ := Prod.mk.injEq _ _ _ _ ▸ h
        subst h1; subst h2
        simp [List.lookup]
      · have hi : i ∈ tl.map Prod.fst := List.mem_map.mpr ⟨(i, v), h, rfl⟩
        have hnd' : (i₀ :: tl.map Prod.fst).Nodup := by simpa using hnd
        have hi₀ : i₀ ∉ tl.map Prod.fst := (List.nodup_cons.mp hnd').1
        have hne : i ≠ i₀ := fun hh => hi₀ (hh ▸ hi)
        have htl : (tl.map Prod.fst).Nodup := (List.nodup_cons.mp hnd').2
        simp [List.lookup, beq_false_of_ne hne]
        exact ih htl i v h

/-! ### Helper lemmas about `record` -/

/-- The event `record` builds on a successful call. -/
def builtEvent (st : GleanState) (m : EventMetric)
    (resolved : List (String × String)) (dt : Nat) : RecordedEvent :=
  ⟨st.now + dt, m.category, m.name, resolved⟩

lemma record_eq_of_resolved {m : EventMetric} {extra : Option CandidateExtra}
    {resolved : List (String × String)}
    (h : resolveCandidate m.allowed_extra_keys extra = some resolved)
    (st : GleanState) (dt : Nat) :
    st.record m extra dt =
      ⟨st.store.appendAll m.send_in_pings (builtEvent st m resolved dt),
       st.invalid_extra_key_errors, st.now + dt⟩ := by
  simp [GleanState.record, h, builtEvent]

lemma record_eq_of_rejected {m : EventMetric} {extra : Option CandidateExtra}
    (h : resolveCandidate m.allowed_extra_keys extra = none)
    (st : GleanState) (dt : Nat) :
    st.record m extra dt = ⟨st.store, st.invalid_extra_key_errors + 1, st.now + dt⟩ := by
  simp [GleanState.record, h]

lemma resolveCandidate_none_of_bad_index {m : EventMetric} {ce : CandidateExtra}
    {i : Int} {v : String} (hmem : (i, v) ∈ ce.entries)
    (hbad : ¬(0 ≤ i ∧ i < (m.allowed_extra_keys.length : Int))) :
    resolveCandidate m.allowed_extra_keys (some ce) = none := by
  have hval : ¬ validExtras m.allowed_extra_keys ce.entries = true := by
    intro hv
    exact hbad ((validExtras_iff _ _).mp hv (i, v) hmem)
  simp [resolveCandidate, validate, hval]

lemma record_rejects_of_bad_index {m : EventMetric} {ce : CandidateExtra}
    {i : Int} {v : String} (st : GleanState) (dt : Nat)
    (hmem : (i, v) ∈ ce.entries)
    (hbad : ¬(0 ≤ i ∧ i < (m.allowed_extra_keys.length : Int))) :
    st.record m (some ce) dt =
      ⟨st.store, st.invalid_extra_key_errors + 1, st.now + dt⟩ :=
  record_eq_of_rejected (resolveCandidate_none_of_bad_index hmem hbad) st dt

lemma resolveCandidate_some_of_valid {m : EventMetric} {ce : CandidateExtra}
    (h : ∀ p ∈ ce.entries, 0 ≤ p.1 ∧ p.1 < (m.allowed_extra_keys.length : Int)) :
    resolveCandidate m.allowed_extra_keys (some ce) =
      some (resolveExtra m.allowed_extra_keys ce.entries) := by
  simp [resolveCandidate, validate, (validExtras_iff _ _).mpr h]

/-! ### Sequences of `record` calls -/

/-- Run a sequence of `record` calls (extras and clock advance per call). -/
def recordMany (st : GleanState) (m : EventMetric) :
    List (Option CandidateExtra × Nat) → GleanState
  | [] => st
  | c :: cs => recordMany (st.record m c.1 c.2) m cs

/-- The events the successful calls of a sequence append, in call order. -/
def expectedEvents (st : GleanState) (m : EventMetric) :
    List (Option CandidateExtra × Nat) → List RecordedEvent
  | [] => []
  | c :: cs =>
      match resolveCandidate m.allowed_extra_keys c.1 with
      | some r => builtEvent st m r c.2 :: expectedEvents (st.record m c.1 c.2) m cs
      | none => expectedEvents (st.record m c.1 c.2) m cs

lemma eventsOf_recordMany (m : EventMetric) (hnd : m.send_in_pings.Nodup)
    (s : String) (hs : s ∈ m.send_in_pings) :
    ∀ (cs : List (Option CandidateExtra × Nat)) (st : GleanState),
      (recordMany st m cs).store.eventsOf s =
        st.store.eventsOf s ++ expectedEvents st m cs := by
  intro cs
  induction cs with
  | nil => intro st; simp [recordMany, expectedEvents]
  | cons c cs ih =>
      intro st
      rcases hres : resolveCandidate m.allowed_extra_keys c.1 with _ | r
      · have hstore : (st.record m c.1 c.2).store = st.store := by
          rw [record_eq_of_rejected hres]
        calc (recordMany st m (c :: cs)).store.eventsOf s
            = (recordMany (st.record m c.1 c.2) m cs).store.eventsOf s := rfl
          _ = (st.record m c.1 c.2).store.eventsOf s ++
                expectedEvents (st.record m c.1 c.2) m cs := ih _
          _ = st.store.eventsOf s ++ expectedEvents st m (c :: cs) := by
              rw [hstore]
              congr 1
              simp [expectedEvents, hres]
      · have hstore : (st.record m c.1 c.2).store =
            st.store.appendAll m.send_in_pings (builtEvent st m r c.2) := by
          rw [record_eq_of_resolved hres]
        calc (recordMany st m (c :: cs)).store.eventsOf s
            = (recordMany (st.record m c.1 c.2) m cs).store.eventsOf s := rfl
          _ = (st.record m c.1 c.2).store.eventsOf s ++
                expectedEvents (st.record m c.1 c.2) m cs := ih _
          _ = (st.store.eventsOf s ++ [builtEvent st m r c.2]) ++
                expectedEvents (st.record m c.1 c.2) m cs := by
              rw [hstore, eventsOf_appendAll_mem _ _ _ _ hnd hs]
          _ = st.store.eventsOf s ++ expectedEvents st m (c :: cs) := by
              simp [expectedEvents, hres]

lemma expectedEvents_length (m : EventMetric) :
    ∀ (cs : List (Option CandidateExtra × Nat)) (st : GleanState),
      (∀ c ∈ cs, (resolveCandidate m.allowed_extra_keys c.1).isSome = true) →
      (expectedEvents st m cs).length = cs.length := by
  intro cs
  induction cs with
  | nil => intro st _; rfl
  | cons c cs ih =>
      intro st hall
      rcases hres : resolveCandidate m.allowed_extra_keys c.1 with _ | r
      · have := hall c (List.mem_cons_self c cs)
        rw [hres] at this
        simp at this
      · have : (expectedEvents (st.record m c.1 c.2) m cs).length = cs.length :=
          ih _ (fun d hd => hall d (List.mem_cons_of_mem c hd))
        simp [expectedEvents, hres, this]

/-! ### Timestamp invariants -/

/-- The timestamp invariant: every stored timestamp is bounded by the clock
and every channel's timestamps are non-decreasing in append order. -/
def tsOK (st : GleanState) : Prop :=
  (∀ (s : String), ∀ e ∈ st.store.eventsOf s, e.timestamp ≤ st.now) ∧
  (∀ s : String, List.Chain' (· ≤ ·) ((st.store.eventsOf s).map RecordedEvent.timestamp))

lemma chain_le_of_all_eq (c : Nat) :
    ∀ l : List Nat, (∀ x ∈ l, x = c) → l.Chain' (· ≤ ·)
  | [], _ => List.chain'_nil
  | [a], _ => List.chain'_singleton a
  | a :: b :: tl, h => by
      have hab : a ≤ b := by
        have ha : a = c := h a (by simp)
        have hb : b = c := h b (by simp)
        omega
      have htl : (b :: tl).Chain' (· ≤ ·) :=
        chain_le_of_all_eq c (b :: tl) (fun x hx => h x (List.mem_cons_of_mem a hx))
      exact List.Chain'.cons hab htl

/-! ### Read operations leave the state alone -/

lemma runRead_state (st : GleanState) (op : ReadOp) : (runRead st op).2 = st := by
  cases op <;> rfl

lemma eventsOf_applyOp (st : GleanState) (op : CoreOp) (s : String) :
    ∃ tail, (applyOp st op).store.eventsOf s = st.store.eventsOf s ++ tail := by
  cases op with
  | call m extra dt =>
      rcases hres : resolveCandidate m.allowed_extra_keys extra with _ | r
      · rw [show applyOp st (.call m extra dt) = st.record m extra dt from rfl,
            record_eq_of_rejected hres]
        exact ⟨[], by simp⟩
      · rw [show applyOp st (.call m extra dt) = st.record m extra dt from rfl,
            record_eq_of_resolved hres]
        obtain ⟨tail, htail, _⟩ :=
          eventsOf_appendAll_cases st.store m.send_in_pings (builtEvent st m r dt) s
        exact ⟨tail, htail⟩
  | read r => rw [show applyOp st (.read r) = (runRead st r).2 from rfl, runRead_state]
              exact ⟨[], by simp⟩

/-! ### JSON projection of one event -/

lemma eventToJson_getField_timestamp (e : RecordedEvent) :
    (eventToJson e).getField "timestamp" = some (Json.num e.timestamp) := rfl

lemma eventToJson_getField_category (e : RecordedEvent) :
    (eventToJson e).getField "category" = some (Json.str e.category) := rfl

lemma eventToJson_getField_name (e : RecordedEvent) :
    (eventToJson e).getField "name" = some (Json.str e.name) := rfl

lemma eventToJson_getField_extra_empty (e : RecordedEvent) (h : e.extra = []) :
    (eventToJson e).getField "extra" = none := by
  have : eventToJson e =
      Json.obj [("timestamp", Json.num e.timestamp),
                ("category", Json.str e.category),
                ("name", Json.str e.name)] := by
    simp [eventToJson, h]
  rw [this]
  rfl

lemma eventToJson_getField_extra_nonempty (e : RecordedEvent) (h : e.extra ≠ []) :
    (eventToJson e).getField "extra" =
      some (Json.obj (e.extra.map fun p => (p.1, Json.str p.2))) := by
  have hne : e.extra.isEmpty = false := by
    cases hx : e.extra with
    | nil => exact absurd hx h
    | cons a tl => rfl
  have : eventToJson e =
      Json.obj [("timestamp", Json.num e.timestamp),
                ("category", Json.str e.category),
                ("name", Json.str e.name),
                ("extra", Json.obj (e.extra.map fun p => (p.1, Json.str p.2)))] := by
    simp [eventToJson, hne]
  rw [this]
  rfl

/-! ### Concrete fixtures (the spec's §8 scenarios) -/

/-- The spec's concrete metric: category `ui`, name `click_event`,
ExtraKeyTable `["reason"]`, registered on store `metrics`. -/
def sampleMetric : EventMetric := ⟨"ui", "click_event", ["reason"], ["metrics"]⟩

/-- The spec's in-range candidate extras `{0: "click"}`. -/
def sampleGood : CandidateExtra := ⟨[(0, "click")], by decide⟩

/-- The spec's out-of-range candidate extras `{5: "x"}`. -/
def sampleBad : CandidateExtra := ⟨[(5, "x")], by decide⟩

/-- Candidate extras at the extreme i32 indices. -/
def sampleExtreme : CandidateExtra :=
  ⟨[(-2147483648, "lo"), (2147483647, "hi")], by decide⟩

/-! ### Claims -/

/-- C1: with an ExtraKeyTable of length N, any candidate extra mapping
containing an index outside `[0, N)` (including any negative index) makes
`record` reject the entire event atomically: the store map is unchanged (so
every store's event sequence is unchanged) and the invalid-extra-key error
counter increases by exactly 1; `record` still returns a state normally, so
no error is surfaced to the caller. -/
theorem C1_out_of_range_index_rejects_whole_event (st : GleanState)
    (m : EventMetric) (ce : CandidateExtra) (dt : Nat)
    (h : ∃ p ∈ ce.entries, ¬(0 ≤ p.1 ∧ p.1 < (m.allowed_extra_keys.length : Int))) :
    (st.record m (some ce) dt).store = st.store ∧
    (∀ s : String,
      (st.record m (some ce) dt).store.eventsOf s = st.store.eventsOf s) ∧
    (st.record m (some ce) dt).invalid_extra_key_errors =
      st.invalid_extra_key_errors + 1 := by
  obtain ⟨p, hp, hbad⟩ := h
  have hrec := record_rejects_of_bad_index (i := p.1) (v := p.2) st dt
    (by simpa using hp) hbad
  exact ⟨by rw [hrec], fun s => by rw [hrec], by rw [hrec]⟩

/-- C1 witness: the spec's scenario `record({5: "x"})` against the table
`["reason"]` leaves the store untouched and bumps the error counter. -/
theorem C1_witness :
    (GleanState.init.record sampleMetric (some sampleBad) 1).store =
        GleanState.init.store ∧
    (GleanState.init.record sampleMetric (some sampleBad) 1).invalid_extra_key_errors =
      GleanState.init.invalid_extra_key_errors + 1 := by
  have h := C1_out_of_range_index_rejects_whole_event GleanState.init sampleMetric
    sampleBad 1 ⟨(5, "x"), by decide, by decide⟩
  exact ⟨h.1, h.2.2⟩

/-- C2: with an ExtraKeyTable of length N and every candidate index in
`[0, N)`, `record` succeeds: the built event (whose extras are the resolved
extras) is appended to each registered store, the error counter is
unchanged, the resolved keys are a sublist of the table (hence in
index-ascending table order and a subset of the table's names), and every
supplied `(index, value)` entry resolves to `(table[index], value)`. -/
theorem C2_in_range_extras_resolved_in_order (st : GleanState) (m : EventMetric)
    (ce : CandidateExtra) (dt : Nat) (hnd : m.send_in_pings.Nodup)
    (h : ∀ p ∈ ce.entries, 0 ≤ p.1 ∧ p.1 < (m.allowed_extra_keys.length : Int)) :
    (∀ s ∈ m.send_in_pings,
      (st.record m (some ce) dt).store.eventsOf s =
        st.store.eventsOf s ++
          [builtEvent st m (resolveExtra m.allowed_extra_keys ce.entries) dt]) ∧
    (st.record m (some ce) dt).invalid_extra_key_errors =
      st.invalid_extra_key_errors ∧
    ((resolveExtra m.allowed_extra_keys ce.entries).map Prod.fst).Sublist
      m.allowed_extra_keys ∧
    (∀ p ∈ resolveExtra m.allowed_extra_keys ce.entries,
      p.1 ∈ m.allowed_extra_keys) ∧
    (∀ q ∈ ce.entries, ∃ k, m.allowed_extra_keys[q.1.toNat]? = some k ∧
      (k, q.2) ∈ resolveExtra m.allowed_extra_keys ce.entries) := by
  have hres : resolveCandidate m.allowed_extra_keys (some ce) =
      some (resolveExtra m.allowed_extra_keys ce.entries) :=
    resolveCandidate_some_of_valid h
  have hrec := record_eq_of_resolved hres st dt
  refine ⟨?_, by rw [hrec], ?_, ?_, ?_⟩
  · intro s hs
    rw [hrec]
    exact eventsOf_appendAll_mem _ _ _ _ hnd hs
  · exact resolveFrom_map_fst_sublist ce.entries m.allowed_extra_keys 0
  · intro p hp
    exact mem_fst_of_mem_resolveFrom ce.entries m.allowed_extra_keys 0 p.1 p.2
      (by simpa using hp)
  · intro q hq
    have h0 : 0 ≤ q.1 := (h q hq).1
    have hlt : q.1 < (m.allowed_extra_keys.length : Int) := (h q hq).2
    have hjlt : q.1.toNat < m.allowed_extra_keys.length := by omega
    refine ⟨m.allowed_extra_keys[q.1.toNat], List.getElem?_eq_getElem hjlt, ?_⟩
    have hofNat : Int.ofNat (0 + q.1.toNat) = q.1 := by
      simp only [Int.ofNat_eq_coe]
      omega
    have hlk : ce.entries.lookup (Int.ofNat (0 + q.1.toNat)) = some q.2 := by
      rw [hofNat]
      exact lookup_eq_of_nodup ce.entries ce.keysNodup q.1 q.2 (by simpa using hq)
    exact mem_resolveFrom_of_lookup ce.entries m.allowed_extra_keys 0 q.1.toNat _ q.2
      (List.getElem?_eq_getElem hjlt) hlk

/-- C2 witness: the spec's scenario `record({0: "click"})` against the table
`["reason"]` leaves the error counter unchanged and appends the resolved
event to the `metrics` store. -/
theorem C2_witness :
    (GleanState.init.record sampleMetric (some sampleGood) 7).invalid_extra_key_errors =
      GleanState.init.invalid_extra_key_errors ∧
    (GleanState.init.record sampleMetric (some sampleGood) 7).store.eventsOf "metrics" =
      GleanState.init.store.eventsOf "metrics" ++
        [builtEvent GleanState.init sampleMetric
          (resolveExtra sampleMetric.allowed_extra_keys sampleGood.entries) 7] := by
  have h := C2_in_range_extras_resolved_in_order GleanState.init sampleMetric
    sampleGood 7 (by decide) (by decide)
  exact ⟨h.2.1, h.1 "metrics" (by decide)⟩

/-- C3: each successful `record` call appends one and the same event (same
category, name, extras) to every store the metric is registered under, so
`test_get_value` on any two of those stores ends in the same last event. -/
theorem C3_fanout_identical_content (st : GleanState) (m : EventMetric)
    (extra : Option CandidateExtra) (dt : Nat)
    (resolved : List (String × String)) (hnd : m.send_in_pings.Nodup)
    (hres : resolveCandidate m.allowed_extra_keys extra = some resolved) :
    (∀ s ∈ m.send_in_pings,
      (st.record m extra dt).store.eventsOf s =
        st.store.eventsOf s ++ [builtEvent st m resolved dt]) ∧
    (∀ s ∈ m.send_in_pings,
      test_get_value (st.record m extra dt) s =
        some (st.store.eventsOf s ++ [builtEvent st m resolved dt])) ∧
    (∀ s₁ ∈ m.send_in_pings, ∀ s₂ ∈ m.send_in_pings,
      ((st.record m extra dt).store.eventsOf s₁).getLast? =
        ((st.record m extra dt).store.eventsOf s₂).getLast?) := by
  have hrec := record_eq_of_resolved hres st dt
  have hstore : ∀ s ∈ m.send_in_pings,
      (st.record m extra dt).store.eventsOf s =
        st.store.eventsOf s ++ [builtEvent st m resolved dt] := by
    intro s hs
    rw [hrec]
    exact eventsOf_appendAll_mem _ _ _ _ hnd hs
  refine ⟨hstore, ?_, ?_⟩
  · intro s hs
    unfold test_get_value
    rw [snapshot_eq, hstore s hs]
    simp
  · intro s₁ h₁ s₂ h₂
    rw [hstore s₁ h₁, hstore s₂ h₂, List.getLast?_concat, List.getLast?_concat]

/-- C3 witness: recording `{0: "click"}` on the sample metric makes
`test_get_value("metrics")` return the singleton resolved event. -/
theorem C3_witness :
    test_get_value (GleanState.init.record sampleMetric (some sampleGood) 7) "metrics" =
      some (GleanState.init.store.eventsOf "metrics" ++
        [builtEvent GleanState.init sampleMetric [("reason", "click")] 7]) :=
  (C3_fanout_identical_content GleanState.init sampleMetric (some sampleGood) 7
    [("reason", "click")] (by decide) (by decide)).2.1 "metrics" (by decide)

/-- C4: after a sequence of successful `record` calls starting from an empty
channel, `test_get_value` returns `some` of the recorded events in exactly
call order, and `test_get_value_as_json_string` is the rendering of the JSON
array of those events (one JSON object per event, same length), each
object's `timestamp`, `category`, `name` and `extra` fields matching the
corresponding `RecordedEvent`. -/
theorem C4_append_order_and_json_agree (m : EventMetric)
    (cs : List (Option CandidateExtra × Nat)) (s : String) (st : GleanState)
    (hnd : m.send_in_pings.Nodup) (hs : s ∈ m.send_in_pings)
    (hempty : st.store.eventsOf s = []) (hne : cs ≠ [])
    (hall : ∀ c ∈ cs, (resolveCandidate m.allowed_extra_keys c.1).isSome = true) :
    test_get_value (recordMany st m cs) s = some (expectedEvents st m cs) ∧
    (expectedEvents st m cs).length = cs.length ∧
    test_get_value_as_json_string (recordMany st m cs) s =
      Json.render (Json.arr ((expectedEvents st m cs).map eventToJson)) ∧
    ((expectedEvents st m cs).map eventToJson).length =
      (expectedEvents st m cs).length ∧
    (∀ e ∈ expectedEvents st m cs,
      (eventToJson e).getField "timestamp" = some (Json.num e.timestamp) ∧
      (eventToJson e).getField "category" = some (Json.str e.category) ∧
      (eventToJson e).getField "name" = some (Json.str e.name) ∧
      (e.extra = [] → (eventToJson e).getField "extra" = none) ∧
      (e.extra ≠ [] → (eventToJson e).getField "extra" =
        some (Json.obj (e.extra.map fun p => (p.1, Json.str p.2))))) := by
  have hev := eventsOf_recordMany m hnd s hs cs st
  have hlen := expectedEvents_length m cs st hall
  have hevs : (recordMany st m cs).store.eventsOf s = expectedEvents st m cs := by
    rw [hev, hempty]; simp
  have hnil : expectedEvents st m cs ≠ [] := by
    intro h0
    rw [h0] at hlen
    exact hne (List.length_eq_zero.mp hlen.symm)
  refine ⟨?_, hlen, ?_, by simp, ?_⟩
  · unfold test_get_value
    rw [snapshot_eq, hevs]
    simp [hnil]
  · unfold test_get_value_as_json_string
    rw [hevs]
  · intro e _
    exact ⟨eventToJson_getField_timestamp e, eventToJson_getField_category e,
      eventToJson_getField_name e,
      fun h => eventToJson_getField_extra_empty e h,
      fun h => eventToJson_getField_extra_nonempty e h⟩

/-- C4 witness: one successful call on the sample metric; the typed value is
the expected one-event list and the JSON string is its rendering. -/
theorem C4_witness :
    test_get_value (recordMany GleanState.init sampleMetric [(some sampleGood, 7)])
        "metrics" =
      some (expectedEvents GleanState.init sampleMetric [(some sampleGood, 7)]) ∧
    test_get_value_as_json_string
        (recordMany GleanState.init sampleMetric [(some sampleGood, 7)]) "metrics" =
      Json.render (Json.arr
        ((expectedEvents GleanState.init sampleMetric [(some sampleGood, 7)]).map
          eventToJson)) := by
  have h := C4_append_order_and_json_agree sampleMetric [(some sampleGood, 7)]
    "metrics" GleanState.init (by decide) (by decide) (by decide)
    (List.cons_ne_nil _ _)
    (by intro c hc
        rcases List.mem_singleton.mp hc with rfl
        decide)
  exact ⟨h.1, h.2.2.1⟩

/-- C5: a channel holding no events — never created, existing but empty, or
just cleared by the external collaborator — observes as `test_has_value` =
`false`, `test_get_value` = `none`, and JSON text exactly `"[]"`; the three
reads are total functions, so no error can be raised for any store name. -/
theorem C5_empty_store_observations (st : GleanState) (n cn : String)
    (h : st.store.eventsOf n = []) :
    (test_has_value st n = false ∧ test_get_value st n = none ∧
     test_get_value_as_json_string st n = "[]") ∧
    (test_has_value (st.clearStore cn) cn = false ∧
     test_get_value (st.clearStore cn) cn = none ∧
     test_get_value_as_json_string (st.clearStore cn) cn = "[]") := by
  have hc : (st.clearStore cn).store.eventsOf cn = [] := eventsOf_clear st.store cn
  constructor
  · refine ⟨?_, ?_, ?_⟩
    · unfold test_has_value
      rw [has_events_eq, h]
      rfl
    · unfold test_get_value
      rw [snapshot_eq, h]
      simp
    · unfold test_get_value_as_json_string
      rw [h]
      rfl
  · refine ⟨?_, ?_, ?_⟩
    · unfold test_has_value
      rw [has_events_eq, hc]
      rfl
    · unfold test_get_value
      rw [snapshot_eq, hc]
      simp
    · unfold test_get_value_as_json_string
      rw [hc]
      rfl

/-- C5 witness: the never-written `metrics` channel of the initial state,
and the `other` channel right after an external clear. -/
theorem C5_witness :
    (test_has_value GleanState.init "metrics" = false ∧
     test_get_value GleanState.init "metrics" = none ∧
     test_get_value_as_json_string GleanState.init "metrics" = "[]") ∧
    (test_has_value (GleanState.init.clearStore "other") "other" = false ∧
     test_get_value (GleanState.init.clearStore "other") "other" = none ∧
     test_get_value_as_json_string (GleanState.init.clearStore "other") "other" =
       "[]") :=
  C5_empty_store_observations GleanState.init "metrics" "other" (by decide)

/-- C6: `record` with absent extras is always accepted (error counter
unchanged), the appended event's resolved extras are empty, and its JSON
object omits the `extra` field entirely (absent key, not an empty object). -/
theorem C6_record_none_accepted_no_extra_field (st : GleanState)
    (m : EventMetric) (dt : Nat) (hnd : m.send_in_pings.Nodup) :
    (st.record m none dt).invalid_extra_key_errors =
      st.invalid_extra_key_errors ∧
    (∀ s ∈ m.send_in_pings,
      (st.record m none dt).store.eventsOf s =
        st.store.eventsOf s ++ [builtEvent st m [] dt]) ∧
    (builtEvent st m [] dt).extra = [] ∧
    (eventToJson (builtEvent st m [] dt)).getField "extra" = none := by
  have hres : resolveCandidate m.allowed_extra_keys none = some [] := rfl
  have hrec := record_eq_of_resolved hres st dt
  refine ⟨by rw [hrec], ?_, rfl, eventToJson_getField_extra_empty _ rfl⟩
  intro s hs
  rw [hrec]
  exact eventsOf_appendAll_mem _ _ _ _ hnd hs

/-- C6 witness: `record(None)` on the sample metric is accepted and the
built event's JSON object has no `extra` field. -/
theorem C6_witness :
    (GleanState.init.record sampleMetric none 2).invalid_extra_key_errors =
      GleanState.init.invalid_extra_key_errors ∧
    (eventToJson (builtEvent GleanState.init sampleMetric [] 2)).getField "extra" =
      none := by
  have h := C6_record_none_accepted_no_extra_field GleanState.init sampleMetric 2
    (by decide)
  exact ⟨h.1, h.2.2.2⟩

/-- C7: the test reads are pure: running any sequence of `test_has_value` /
`test_get_value` / `test_get_value_as_json_string` reads, in any order,
leaves the state exactly as it was, and every read in the sequence returns
precisely what the same read returns on the initial state — so repeated
reads without an intervening `record` or external clear are idempotent. -/
theorem C7_reads_idempotent_never_mutate (st : GleanState) (ops : List ReadOp) :
    (runReads st ops).2 = st ∧
    (runReads st ops).1 = ops.map fun op => (runRead st op).1 := by
  induction ops with
  | nil => exact ⟨rfl, rfl⟩
  | cons op ops ih =>
      have h2 := runRead_state st op
      constructor
      · show (runReads (runRead st op).2 ops).2 = st
        rw [h2]
        exact ih.1
      · show (runRead st op).1 :: (runReads (runRead st op).2 ops).1 =
          (op :: ops).map fun o => (runRead st o).1
        rw [h2, ih.2]
        rfl

/-- C8: under this core's operations a channel never shrinks: every core
operation extends each channel's sequence (possibly by nothing), so
`test_has_value` never transitions from `true` back to `false`; each
successful `record` grows every registered store by exactly one event and
leaves it non-empty (EMPTY→HAS_EVENTS on the first success, growing
self-loop afterwards); only the external `clear` empties a channel. -/
theorem C8_store_never_shrinks :
    (∀ (st : GleanState) (op : CoreOp) (s : String),
      ∃ tail, (applyOp st op).store.eventsOf s = st.store.eventsOf s ++ tail) ∧
    (∀ (st : GleanState) (op : CoreOp) (s : String),
      test_has_value st s = true → test_has_value (applyOp st op) s = true) ∧
    (∀ (st : GleanState) (m : EventMetric) (extra : Option CandidateExtra)
       (dt : Nat) (resolved : List (String × String)) (s : String),
      m.send_in_pings.Nodup → s ∈ m.send_in_pings →
      resolveCandidate m.allowed_extra_keys extra = some resolved →
      ((st.record m extra dt).store.eventsOf s).length =
        (st.store.eventsOf s).length + 1 ∧
      test_has_value (st.record m extra dt) s = true) ∧
    (∀ (st : GleanState) (s : String),
      (st.clearStore s).store.eventsOf s = []) := by
  refine ⟨eventsOf_applyOp, ?_, ?_, ?_⟩
  · intro st op s h
    obtain ⟨tail, htail⟩ := eventsOf_applyOp st op s
    unfold test_has_value at h ⊢
    rw [has_events_eq] at h ⊢
    rw [htail]
    rcases hl : st.store.eventsOf s with _ | ⟨a, l⟩
    · rw [hl] at h
      simp at h
    · simp
  · intro st m extra dt resolved s hnd hs hres
    have hrec := record_eq_of_resolved hres st dt
    have hev : (st.record m extra dt).store.eventsOf s =
        st.store.eventsOf s ++ [builtEvent st m resolved dt] := by
      rw [hrec]
      exact eventsOf_appendAll_mem _ _ _ _ hnd hs
    constructor
    · rw [hev]
      simp
    · unfold test_has_value
      rw [has_events_eq, hev]
      simp
  · intro st s
    exact eventsOf_clear st.store s

/-- C8 witness: one successful call on the sample metric grows the
`metrics` channel from 0 to 1 event and makes `test_has_value` true; the
external clear empties it again. -/
theorem C8_witness :
    ((GleanState.init.record sampleMetric (some sampleGood) 7).store.eventsOf
        "metrics").length =
      (GleanState.init.store.eventsOf "metrics").length + 1 ∧
    test_has_value (GleanState.init.record sampleMetric (some sampleGood) 7)
      "metrics" = true ∧
    (GleanState.init.clearStore "metrics").store.eventsOf "metrics" = [] := by
  have h := C8_store_never_shrinks
  have h3 := h.2.2.1 GleanState.init sampleMetric (some sampleGood) 7
    [("reason", "click")] "metrics" (by decide) (by decide) (by decide)
  exact ⟨h3.1, h3.2, h.2.2.2 GleanState.init "metrics"⟩

/-! ### Timestamp invariant helpers -/

lemma tsOK_init : tsOK GleanState.init := by
  constructor
  · intro s e he
    simp [GleanState.init, EventStore.empty, EventStore.eventsOf, List.lookup] at he
  · intro s
    simp [GleanState.init, EventStore.empty, EventStore.eventsOf, List.lookup]

lemma tsOK_record (st : GleanState) (m : EventMetric)
    (extra : Option CandidateExtra) (dt : Nat) (h : tsOK st) :
    tsOK (st.record m extra dt) := by
  obtain ⟨hb, hm⟩ := h
  rcases hres : resolveCandidate m.allowed_extra_keys extra with _ | r
  · have hrec := record_eq_of_rejected hres st dt
    constructor
    · intro s e he
      rw [hrec] at he ⊢
      exact le_trans (hb s e he) (Nat.le_add_right _ _)
    · intro s
      rw [hrec]
      exact hm s
  · have hrec := record_eq_of_resolved hres st dt
    have he' : ∀ s : String, ∃ tail,
        (st.record m extra dt).store.eventsOf s = st.store.eventsOf s ++ tail ∧
        ∀ x ∈ tail, x = builtEvent st m r dt := by
      intro s
      rw [hrec]
      exact eventsOf_appendAll_cases _ _ _ _
    have hnow : (st.record m extra dt).now = st.now + dt := by rw [hrec]
    constructor
    · intro s e he
      obtain ⟨tail, htail, hall⟩ := he' s
      rw [htail] at he
      rw [hnow]
      rcases List.mem_append.mp he with h1 | h1
      · exact le_trans (hb s e h1) (Nat.le_add_right _ _)
      · have : e = builtEvent st m r dt := hall e h1
        subst this
        simp [builtEvent]
    · intro s
      obtain ⟨tail, htail, hall⟩ := he' s
      rw [htail, List.map_append, List.chain'_append]
      refine ⟨hm s, ?_, ?_⟩
      · apply chain_le_of_all_eq (st.now + dt)
        intro x hx
        obtain ⟨e, he, rfl⟩ := List.mem_map.mp hx
        rw [hall e he]
        rfl
      · intro x hx y hy
        have hxm : x ∈ (st.store.eventsOf s).map RecordedEvent.timestamp := by
          rcases List.mem_getLast?_eq_getLast hx with ⟨hne, rfl⟩
          exact List.getLast_mem hne
        obtain ⟨e, he, rfl⟩ := List.mem_map.mp hxm
        have hxle : e.timestamp ≤ st.now := hb s e he
        have hym : y ∈ tail.map RecordedEvent.timestamp := List.mem_of_mem_head? hy
        obtain ⟨e', he', rfl⟩ := List.mem_map.mp hym
        rw [hall e' he']
        calc e.timestamp ≤ st.now := hxle
          _ ≤ st.now + dt := Nat.le_add_right _ _
          _ = (builtEvent st m r dt).timestamp := rfl

/-- C9: from any state satisfying the timestamp invariant — every stored
timestamp bounded by the session clock and every channel's timestamps
non-decreasing in append order — `record` preserves it: the new event's
timestamp is at least every earlier one's, ties permitted, and append order
is kept; the initial session state satisfies the invariant. -/
theorem C9_timestamps_nondecreasing (st : GleanState) (m : EventMetric)
    (extra : Option CandidateExtra) (dt : Nat) (h : tsOK st) :
    tsOK (st.record m extra dt) ∧ tsOK GleanState.init :=
  ⟨tsOK_record st m extra dt h, tsOK_init⟩

/-- C9 witness: the invariant holds at the initial state and after one
concrete successful record on it. -/
theorem C9_witness :
    tsOK (GleanState.init.record sampleMetric (some sampleGood) 7) ∧
    tsOK GleanState.init :=
  C9_timestamps_nondecreasing GleanState.init sampleMetric (some sampleGood) 7
    tsOK_init

/-- C10: the `record` interface keys candidate extras like the source's
`HashMap<i32, String>`: (1) two entries of one call sharing an index are
the same entry, so a duplicate key index is structurally unrepresentable;
(2) `record` is defined (total, panic-free) for every `Int` index —
including i32::MIN and i32::MAX — and an index with no ExtraKeyTable entry
is treated as an invalid key: the event is dropped and the error counter
bumped, with no out-of-bounds access. -/
theorem C10_hashmap_boundary_duplicates_and_totality :
    (∀ (ce : CandidateExtra) (p q : Int × String),
      p ∈ ce.entries → q ∈ ce.entries → p.1 = q.1 → p = q) ∧
    (∀ (st : GleanState) (m : EventMetric) (ce : CandidateExtra) (dt : Nat)
       (i : Int) (v : String),
      (i, v) ∈ ce.entries →
      ¬(0 ≤ i ∧ i < (m.allowed_extra_keys.length : Int)) →
      (st.record m (some ce) dt).store = st.store ∧
      (st.record m (some ce) dt).invalid_extra_key_errors =
        st.invalid_extra_key_errors + 1) := by
  constructor
  · intro ce p q hp hq hfst
    exact List.inj_on_of_nodup_map ce.keysNodup hp hq hfst
  · intro st m ce dt i v hmem hbad
    have hrec := record_rejects_of_bad_index (i := i) (v := v) st dt hmem hbad
    exact ⟨by rw [hrec], by rw [hrec]⟩

/-- C10 witness: extras keyed at i32::MIN and i32::MAX are rejected as
invalid keys on the sample metric, and the duplicate-freeness property
holds at a concrete entry. -/
theorem C10_witness :
    ((GleanState.init.record sampleMetric (some sampleExtreme) 1).store =
        GleanState.init.store ∧
     (GleanState.init.record sampleMetric
        (some sampleExtreme) 1).invalid_extra_key_errors =
       GleanState.init.invalid_extra_key_errors + 1) ∧
    ((-2147483648 : Int), "lo") = ((-2147483648 : Int), "lo") := by
  have h := C10_hashmap_boundary_duplicates_and_totality
  refine ⟨h.2 GleanState.init sampleMetric sampleExtreme 1 (-2147483648) "lo"
    (by decide) (by decide), ?_⟩
  exact h.1 sampleExtreme _ _ (by decide) (by decide) rfl

end Glean
